import Mathlib

/-!
# Verification of the Nexora streaming pipeline

A shallow embedding, over `List Char`, of the core of the Nexora backend:

* the incremental multi-file extractor of `generate_stream`
  (`src/backend/main.py`, lines 1306-1411), which scans the streamed AI
  response for `<file path="P">content</file>` regions;
* its post-stream fallback code-extraction block
  (`src/backend/main.py`, lines 1420-1452);
* the retry / key-rotation logic of `MVPBuilderAgent.get_ai_response`
  (`src/backend/mvp_builder_agent.py`, lines 199-387);
* the credential pool of `ModelRouter` (`src/backend/model_router.py`).

Strings are modelled as `List Char`.  Python regular-expression searches
used by the code are small and fixed, and are embedded as explicit
leftmost-match scanning functions.  Sandbox writes (`update_sandbox_file`)
always succeed in this model (the function in the source unconditionally
returns `True` when no E2B key is configured, and the write failure branch
is orthogonal to the extraction logic under study).  The `language` field
attached to file events is derived data that no claim refers to; it is
omitted from the event model.
-/

namespace Nexora

/-! ## Basic string helpers -/

/-- The brace characters, by code point (avoids brace literals). -/
def lbrace : Char := Char.ofNat 123

def rbrace : Char := Char.ofNat 125

/-- ASCII whitespace, as stripped by Python's `str.strip()`.
(The responses handled by the code are ASCII; the extra Unicode space
code points stripped by Python do not occur.) -/
def isPySpace (c : Char) : Bool :=
  c = ' ' || c = '\t' || c = '\n' || c = '\r' || c = Char.ofNat 11 || c = Char.ofNat 12

/-- Python `str.strip()`: drop leading and trailing whitespace. -/
def pyStrip (s : List Char) : List Char :=
  ((s.dropWhile isPySpace).reverse.dropWhile isPySpace).reverse

/-- Index of the first occurrence of `pat` as a contiguous sublist of `s`
(the semantics of Python `s.find(pat)` / the leftmost match of a literal
pattern), or `none` when there is no occurrence. -/
def firstOccur (pat : List Char) : List Char → Option Nat
  | [] => if pat = [] then some 0 else none
  | c :: s => if pat.isPrefixOf (c :: s) then some 0 else (firstOccur pat s).map (· + 1)

/-- Python `pat in s` for strings. -/
def containsSub (pat s : List Char) : Bool := (firstOccur pat s).isSome

/-- Python `s.count(pat)` for a nonempty pattern `p0 :: prest`:
number of non-overlapping occurrences, scanning left to right.  Fuelled
structurally: every step consumes at least one character, so `s.length`
fuel suffices. -/
def countSubF (p0 : Char) (prest : List Char) : Nat → List Char → Nat
  | 0, _ => 0
  | _, [] => 0
  | f + 1, c :: s =>
    if (p0 :: prest).isPrefixOf (c :: s) then
      1 + countSubF p0 prest f (s.drop prest.length)
    else
      countSubF p0 prest f s

/-- Python `s.count(p0 :: prest)`. -/
def countSub (p0 : Char) (prest : List Char) (s : List Char) : Nat :=
  countSubF p0 prest s.length s

/-! ## The incremental extractor of `generate_stream`

The code keeps a `content_buffer`, an optional `current_file`, and emits
`file_operation` events.  While no file is open it searches the buffer
with `re.compile(r'<file path="([^"]+)">')`; on a match it emits a
`processing` event, discards the buffer up to the end of the match and
opens the file.  While a file is open it searches for `</file>`; on a
match it emits a `completed` event carrying the stripped content, discards
the consumed prefix and closes the file.  The loop repeats until no
further match is found. -/

/-- The literal prefix of the file-open pattern: `<file path="`. -/
def fileStartLit : List Char := ("<file path=\"".toList)

/-- The close delimiter `</file>`. -/
def fileEndTag : List Char := ("</file>".toList)

/-- The character class `[^"]` of the file-open pattern. -/
def neQuote (c : Char) : Bool := c ≠ '"'

/-- Try to match the regex `<file path="([^"]+)">` at the start of `s`.
On success, return the captured path and the length of the whole match.
The character class `[^"]+` cannot cross a quote, so the regex matches at
a position iff the literal `<file path="` is followed by a nonempty run of
non-quote characters and then `">`. -/
def matchFileStartAt (s : List Char) : Option (List Char × Nat) :=
  if fileStartLit.isPrefixOf s then
    if (s.drop fileStartLit.length).takeWhile neQuote ≠ [] ∧
        ('"' :: '>' :: []).isPrefixOf ((s.drop fileStartLit.length).dropWhile neQuote) then
      some ((s.drop fileStartLit.length).takeWhile neQuote,
        fileStartLit.length + ((s.drop fileStartLit.length).takeWhile neQuote).length + 2)
    else none
  else none

/-- `re.search` for the file-open pattern: the leftmost position at which
`matchFileStartAt` succeeds.  Returns the captured path and the index just
past the end of the match (`match.end()`). -/
def searchFileStart : List Char → Option (List Char × Nat)
  | [] => none
  | c :: s =>
    match matchFileStartAt (c :: s) with
    | some pe => some pe
    | none => (searchFileStart s).map (fun pe => (pe.1, pe.2 + 1))

/-- A `file_operation` progress event, as yielded by `generate_stream`. -/
inductive Ev where
  /-- `{'type': 'file_operation', 'status': 'processing', 'path': path}` -/
  | processing (path : List Char)
  /-- `{'type': 'file_operation', 'status': 'completed', 'path': path, 'content': content}` -/
  | completed (path content : List Char)
deriving DecidableEq, Repr

/-- The completed files carried by an event list, in emission order. -/
def filesOf (evs : List Ev) : List (List Char × List Char) :=
  evs.filterMap fun e =>
    match e with
    | .completed p c => some (p, c)
    | .processing _ => none

/-- The extractor state of `generate_stream`: the accumulation buffer,
the currently open file's path (if any), and the events emitted so far. -/
structure ExtState where
  contentBuffer : List Char
  currentFile : Option (List Char)
  events : List Ev
deriving DecidableEq, Repr

/-- One pass of the `while True` parse loop, fuelled.  Each iteration
either consumes a nonempty prefix of the buffer or stops, so any fuel
greater than the buffer length reaches the fixpoint. -/
def extLoopF : Nat → ExtState → ExtState
  | 0, s => s
  | fuel + 1, s =>
    match s.currentFile with
    | none =>
      match searchFileStart s.contentBuffer with
      | none => s
      | some pe =>
        extLoopF fuel
          { contentBuffer := s.contentBuffer.drop pe.2
            currentFile := some pe.1
            events := s.events ++ [.processing pe.1] }
    | some p =>
      match firstOccur fileEndTag s.contentBuffer with
      | none => s
      | some i =>
        extLoopF fuel
          { contentBuffer := s.contentBuffer.drop (i + fileEndTag.length)
            currentFile := none
            events := s.events ++ [.completed p (pyStrip (s.contentBuffer.take i))] }

/-- Run the parse loop to quiescence. -/
def extLoop (s : ExtState) : ExtState := extLoopF (s.contentBuffer.length + 1) s

/-- Process one incoming chunk: append it to the buffer, then run the
parse loop (`content_buffer += chunk` followed by the `while True` loop). -/
def feed (s : ExtState) (chunk : List Char) : ExtState :=
  extLoop { s with contentBuffer := s.contentBuffer ++ chunk }

/-- The initial extractor state of a fresh `generate_stream` call. -/
def initState : ExtState := ⟨[], none, []⟩

/-- Feed a whole chunk sequence to a fresh extractor. -/
def runChunks (chunks : List (List Char)) : ExtState :=
  chunks.foldl feed initState

/-! ## Generic list lemmas -/

theorem prefix_append_iff_of_length_le {α : Type} {pat l t : List α}
    (h : pat.length ≤ l.length) : pat <+: l ++ t ↔ pat <+: l := by
  constructor
  · intro hp
    rw [List.prefix_iff_eq_take] at hp ⊢
    rw [List.take_append_eq_append_take, Nat.sub_eq_zero_of_le h, List.take_zero,
      List.append_nil] at hp
    exact hp
  · intro hp
    exact hp.trans (List.prefix_append l t)

theorem isPrefixOf_append_of_le {pat l t : List Char} (h : pat.length ≤ l.length) :
    pat.isPrefixOf (l ++ t) = pat.isPrefixOf l := by
  by_cases hp : pat.isPrefixOf l
  · rw [hp, List.isPrefixOf_iff_prefix.mpr]
    exact ((prefix_append_iff_of_length_le h).mpr (List.isPrefixOf_iff_prefix.mp hp))
  · rw [Bool.eq_false_iff.mpr hp, Bool.eq_false_iff]
    intro hc
    exact hp (List.isPrefixOf_iff_prefix.mpr
      ((prefix_append_iff_of_length_le h).mp (List.isPrefixOf_iff_prefix.mp hc)))

theorem takeWhile_dropWhile_append {p : Char → Bool} {l : List Char}
    (h : ∃ c ∈ l, ¬ p c) (t : List Char) :
    (l ++ t).takeWhile p = l.takeWhile p ∧ (l ++ t).dropWhile p = l.dropWhile p ++ t := by
  induction l with
  | nil =>
    obtain ⟨c, hc, _⟩ := h
    cases hc
  | cons a l ih =>
    by_cases hp : p a
    · have h' : ∃ c ∈ l, ¬ p c := by
        obtain ⟨c, hc, hpc⟩ := h
        rcases List.mem_cons.mp hc with rfl | hm
        · exact absurd hp hpc
        · exact ⟨c, hm, hpc⟩
      obtain ⟨h1, h2⟩ := ih h'
      simp only [List.cons_append, List.takeWhile_cons, List.dropWhile_cons, hp, if_true,
        h1, h2, and_self]
    · simp only [List.cons_append, List.takeWhile_cons, List.dropWhile_cons,
        Bool.eq_false_iff.mpr hp]
      simp

theorem dropWhile_ne_nil_exists {p : Char → Bool} {l : List Char}
    (h : l.dropWhile p ≠ []) : ∃ c ∈ l, ¬ p c := by
  induction l with
  | nil => simp at h
  | cons a l ih =>
    by_cases hp : p a
    · rw [List.dropWhile_cons, if_pos hp] at h
      obtain ⟨c, hc, hpc⟩ := ih h
      exact ⟨c, List.mem_cons_of_mem a hc, hpc⟩
    · exact ⟨a, List.mem_cons_self a l, hp⟩

theorem takeWhile_append_stop {p : List Char} (h : '"' ∉ p) (xs : List Char) :
    (p ++ '"' :: xs).takeWhile neQuote = p ∧
      (p ++ '"' :: xs).dropWhile neQuote = '"' :: xs := by
  induction p with
  | nil => simp [List.takeWhile_cons, List.dropWhile_cons, neQuote]
  | cons a p ih =>
    have ha : a ≠ '"' := fun hc => h (hc ▸ List.mem_cons_self a p)
    have hp : '"' ∉ p := fun hc => h (List.mem_cons_of_mem a hc)
    obtain ⟨h1, h2⟩ := ih hp
    simp only [List.cons_append, List.takeWhile_cons, List.dropWhile_cons, h1, h2]
    simp [neQuote, ha]

/-! ## Lemmas about `firstOccur` -/

theorem firstOccur_nil_pat (s : List Char) : firstOccur [] s = some 0 := by
  cases s <;> simp [firstOccur, List.isPrefixOf_iff_prefix, List.nil_prefix]

theorem firstOccur_bounds {pat s : List Char} {i : Nat}
    (h : firstOccur pat s = some i) : i + pat.length ≤ s.length := by
  induction s generalizing i with
  | nil =>
    unfold firstOccur at h
    split at h
    · rename_i hp
      subst hp
      simp at h
      omega
    · cases h
  | cons c s ih =>
    unfold firstOccur at h
    split at h
    · rename_i hp
      have := (List.isPrefixOf_iff_prefix.mp hp).length_le
      simp at h
      subst h
      simpa using this
    · obtain ⟨j, hj, rfl⟩ := Option.map_eq_some'.mp h
      have := ih hj
      simp only [List.length_cons]
      omega

theorem firstOccur_append {pat s t : List Char} {i : Nat}
    (h : firstOccur pat s = some i) : firstOccur pat (s ++ t) = some i := by
  induction s generalizing i with
  | nil =>
    unfold firstOccur at h
    split at h
    · rename_i hp
      subst hp
      simp at h
      subst h
      simp [firstOccur_nil_pat]
    · cases h
  | cons c s ih =>
    unfold firstOccur at h
    split at h
    · rename_i hp
      simp at h
      subst h
      have : pat.isPrefixOf ((c :: s) ++ t) := by
        rw [List.isPrefixOf_iff_prefix]
        exact (List.isPrefixOf_iff_prefix.mp hp).trans (List.prefix_append _ _)
      simpa [firstOccur] using this
    · rename_i hp
      obtain ⟨j, hj, rfl⟩ := Option.map_eq_some'.mp h
      have hlen : pat.length ≤ (c :: s).length := by
        have := firstOccur_bounds hj
        simp only [List.length_cons]
        omega
      have hp' : ¬ pat.isPrefixOf ((c :: s) ++ t) := by
        rw [isPrefixOf_append_of_le hlen]
        exact hp
      rw [List.cons_append]
      unfold firstOccur
      rw [if_neg (by rw [← List.cons_append]; exact hp')]
      rw [ih hj]
      rfl

/-- A failed prefix match before a boundary stays failed when the text is
extended across the boundary by the pattern's own head character, provided
that head character occurs nowhere else in the pattern (no self-overlap). -/
theorem not_prefix_cons_append {h0 : Char} {pt : List Char} (hmem : h0 ∉ pt)
    {c : Char} {s : List Char} (hnp : ¬ (h0 :: pt) <+: (c :: s)) (X : List Char) :
    ¬ (h0 :: pt) <+: (c :: (s ++ h0 :: X)) := by
  intro hpre
  rw [List.cons_prefix_cons] at hpre
  obtain ⟨rfl, hpt⟩ := hpre
  by_cases hlen : pt.length ≤ s.length
  · exact hnp (List.cons_prefix_cons.mpr ⟨rfl, (prefix_append_iff_of_length_le hlen).mp hpt⟩)
  · push_neg at hlen
    obtain ⟨u, hu⟩ := hpt
    have hdrop : pt.drop s.length ++ u = h0 :: X := by
      have hc := congrArg (List.drop s.length) hu
      rwa [List.drop_append_eq_append_drop, Nat.sub_eq_zero_of_le (Nat.le_of_lt hlen),
        List.drop_zero, List.drop_left] at hc
    cases hd : pt.drop s.length with
    | nil =>
      have hl := List.length_drop s.length pt
      rw [hd] at hl
      simp at hl
      omega
    | cons a as =>
      rw [hd] at hdrop
      have ha : a = h0 := by
        have := congrArg (fun l => l.head?) hdrop
        simpa using this
      have hmem2 : a ∈ pt := by
        have hin : a ∈ pt.drop s.length := by
          rw [hd]
          exact List.mem_cons_self a as
        exact (List.drop_sublist _ _).mem hin
      exact hmem (ha ▸ hmem2)

/-- If a nonself-overlapping pattern does not occur in `s`, then in
`s ++ pat ++ rest` its first occurrence is exactly at the boundary. -/
theorem firstOccur_append_self {h0 : Char} {pt : List Char} (hmem : h0 ∉ pt) :
    ∀ (s rest : List Char), firstOccur (h0 :: pt) s = none →
      firstOccur (h0 :: pt) (s ++ (h0 :: pt) ++ rest) = some s.length := by
  intro s
  induction s with
  | nil =>
    intro rest _
    have hpre : (h0 :: pt).isPrefixOf (h0 :: (pt ++ rest)) := by
      rw [List.isPrefixOf_iff_prefix, List.cons_prefix_cons]
      exact ⟨rfl, List.prefix_append _ _⟩
    simp [firstOccur, hpre]
  | cons c s ih =>
    intro rest h
    unfold firstOccur at h
    split at h
    · cases h
    · rename_i hp
      have hs : firstOccur (h0 :: pt) s = none := by
        rcases ho : firstOccur (h0 :: pt) s with _ | j
        · rfl
        · rw [ho] at h
          cases h
      have hnp : ¬ (h0 :: pt) <+: (c :: s) := fun hc =>
        hp (List.isPrefixOf_iff_prefix.mpr hc)
      have hbig : ¬ (h0 :: pt).isPrefixOf (c :: (s ++ (h0 :: pt) ++ rest)) := by
        intro hc
        have : (h0 :: pt) <+: (c :: (s ++ h0 :: (pt ++ rest))) := by
          simpa using List.isPrefixOf_iff_prefix.mp hc
        exact not_prefix_cons_append hmem hnp (pt ++ rest) this
      rw [List.cons_append, List.cons_append]
      unfold firstOccur
      rw [if_neg (by simpa using hbig)]
      rw [show s ++ (h0 :: pt) ++ rest = s ++ ((h0 :: pt) ++ rest) from by simp] at *
      rw [show firstOccur (h0 :: pt) (s ++ ((h0 :: pt) ++ rest))
            = firstOccur (h0 :: pt) (s ++ (h0 :: pt) ++ rest) from by rw [List.append_assoc]]
      rw [ih rest hs]
      simp

/-! ## Lemmas about the file-open pattern search -/

/-- The tail of `fileStartLit` after its head `'<'`. -/
def fileStartTail : List Char := ("file path=\"".toList)

theorem fileStartLit_eq : fileStartLit = '<' :: fileStartTail := by decide

theorem lt_not_mem_fileStartTail : '<' ∉ fileStartTail := by decide

/-- The tail of `fileEndTag` after its head `'<'`. -/
def fileEndTail : List Char := ("/file>".toList)

theorem fileEndTag_eq : fileEndTag = '<' :: fileEndTail := by decide

theorem lt_not_mem_fileEndTail : '<' ∉ fileEndTail := by decide

theorem matchFileStartAt_bounds {s pth : List Char} {e : Nat}
    (h : matchFileStartAt s = some (pth, e)) : 0 < e ∧ e ≤ s.length ∧ pth ≠ [] := by
  unfold matchFileStartAt at h
  split at h
  · rename_i hpre
    split at h
    · rename_i hcond
      obtain ⟨hne, hqt⟩ := hcond
      simp only [Option.some.injEq, Prod.mk.injEq] at h
      obtain ⟨rfl, rfl⟩ := h
      have hlen : fileStartLit.length ≤ s.length :=
        (List.isPrefixOf_iff_prefix.mp hpre).length_le
      have hsplit := List.takeWhile_append_dropWhile neQuote (s.drop fileStartLit.length)
      have hql : 2 ≤ ((s.drop fileStartLit.length).dropWhile neQuote).length :=
        (List.isPrefixOf_iff_prefix.mp hqt).length_le
      have hrl : (s.drop fileStartLit.length).length = s.length - fileStartLit.length :=
        List.length_drop _ _
      have := congrArg List.length hsplit
      simp only [List.length_append] at this
      refine ⟨by omega, by omega, hne⟩
    · cases h
  · cases h

theorem matchFileStartAt_append {u t : List Char} {r : List Char × Nat}
    (h : matchFileStartAt u = some r) : matchFileStartAt (u ++ t) = some r := by
  unfold matchFileStartAt at h ⊢
  split at h
  · rename_i hpre
    split at h
    · rename_i hcond
      obtain ⟨hne, hqt⟩ := hcond
      have hlen : fileStartLit.length ≤ u.length :=
        (List.isPrefixOf_iff_prefix.mp hpre).length_le
      have hpre' : fileStartLit.isPrefixOf (u ++ t) := by
        rw [isPrefixOf_append_of_le hlen]
        exact hpre
      have hdrop : (u ++ t).drop fileStartLit.length = u.drop fileStartLit.length ++ t := by
        rw [List.drop_append_eq_append_drop, Nat.sub_eq_zero_of_le hlen, List.drop_zero]
      have hex : ∃ c ∈ u.drop fileStartLit.length, ¬ neQuote c := by
        apply dropWhile_ne_nil_exists
        intro hnil
        rw [hnil] at hqt
        exact absurd (List.isPrefixOf_iff_prefix.mp hqt).length_le (by simp)
      obtain ⟨htw, hdw⟩ := takeWhile_dropWhile_append hex t
      have hqt' : ('"' :: '>' :: []).isPrefixOf ((u.drop fileStartLit.length).dropWhile neQuote ++ t) := by
        rw [List.isPrefixOf_iff_prefix]
        exact (List.isPrefixOf_iff_prefix.mp hqt).trans (List.prefix_append _ _)
      rw [if_pos hpre', hdrop, htw, hdw, if_pos ⟨hne, hqt'⟩]
      exact h
    · cases h
  · cases h

theorem matchFileStartAt_append_none {s t : List Char}
    (hq : 2 ≤ (s.drop fileStartLit.length).count '"')
    (h : matchFileStartAt s = none) : matchFileStartAt (s ++ t) = none := by
  have hc2 : (s.drop fileStartLit.length).count '"' ≤ (s.drop fileStartLit.length).length :=
    List.count_le_length _ _
  have hlen : fileStartLit.length ≤ s.length := by
    have := List.length_drop fileStartLit.length s
    omega
  unfold matchFileStartAt at h ⊢
  by_cases hpre : fileStartLit.isPrefixOf s
  · rw [if_pos hpre] at h
    have hpre' : fileStartLit.isPrefixOf (s ++ t) := by
      rw [isPrefixOf_append_of_le hlen]
      exact hpre
    have hdrop : (s ++ t).drop fileStartLit.length = s.drop fileStartLit.length ++ t := by
      rw [List.drop_append_eq_append_drop, Nat.sub_eq_zero_of_le hlen, List.drop_zero]
    have hmem : '"' ∈ s.drop fileStartLit.length := List.count_pos_iff.mp (by omega)
    have hex : ∃ c ∈ s.drop fileStartLit.length, ¬ neQuote c :=
      ⟨'"', hmem, by simp [neQuote]⟩
    obtain ⟨htw, hdw⟩ := takeWhile_dropWhile_append hex t
    rw [if_pos hpre', hdrop, htw, hdw]
    split at h
    · cases h
    · rename_i hcond
      rw [if_neg]
      intro hcond'
      apply hcond
      obtain ⟨hne, hqt⟩ := hcond'
      refine ⟨hne, ?_⟩
      have hcnt : ((s.drop fileStartLit.length).takeWhile neQuote).count '"' = 0 := by
        rw [List.count_eq_zero]
        intro hm
        have := List.mem_takeWhile_imp hm
        simp [neQuote] at this
      have hsplit := List.takeWhile_append_dropWhile neQuote (s.drop fileStartLit.length)
      have hcc := congrArg (List.count '"') hsplit
      rw [List.count_append, hcnt] at hcc
      have hdl : 2 ≤ ((s.drop fileStartLit.length).dropWhile neQuote).length := by
        have := List.count_le_length '"' ((s.drop fileStartLit.length).dropWhile neQuote)
        omega
      rw [List.isPrefixOf_iff_prefix] at hqt ⊢
      exact (prefix_append_iff_of_length_le (by simpa using hdl)).mp hqt
  · rw [if_neg hpre] at h
    rw [if_neg (by rw [isPrefixOf_append_of_le hlen]; exact hpre)]

theorem searchFileStart_bounds {s pth : List Char} {e : Nat}
    (h : searchFileStart s = some (pth, e)) : 0 < e ∧ e ≤ s.length ∧ pth ≠ [] := by
  induction s generalizing e with
  | nil => cases h
  | cons c s ih =>
    unfold searchFileStart at h
    split at h
    · rename_i pe hm
      injection h with h'
      subst h'
      exact matchFileStartAt_bounds hm
    · obtain ⟨⟨p', j⟩, hj, he⟩ := Option.map_eq_some'.mp h
      simp only [Prod.mk.injEq] at he
      obtain ⟨rfl, rfl⟩ := he
      obtain ⟨h1, h2, h3⟩ := ih hj
      exact ⟨by omega, by simp only [List.length_cons]; omega, h3⟩

theorem searchFileStart_two_quotes {s pth : List Char} {e : Nat}
    (h : searchFileStart s = some (pth, e)) :
    2 ≤ (s.drop (fileStartLit.length - 1)).count '"' := by
  induction s generalizing pth e with
  | nil => cases h
  | cons c s ih =>
    unfold searchFileStart at h
    split at h
    · rename_i pe hm
      unfold matchFileStartAt at hm
      split at hm
      · rename_i hpre
        split at hm
        · rename_i hcond
          obtain ⟨u, hu⟩ := List.isPrefixOf_iff_prefix.mp hpre
          have hq1 : '"' ∈ (c :: s).drop fileStartLit.length := by
            obtain ⟨_, hqt⟩ := hcond
            have hmem : '"' ∈ ((c :: s).drop fileStartLit.length).dropWhile neQuote := by
              obtain ⟨v, hv⟩ := List.isPrefixOf_iff_prefix.mp hqt
              rw [← hv]
              simp
            exact (List.dropWhile_sublist _).mem hmem
          have hdrop1 : (c :: s).drop (fileStartLit.length - 1)
              = '"' :: (c :: s).drop fileStartLit.length := by
            rw [← hu, List.drop_append_eq_append_drop,
              Nat.sub_eq_zero_of_le (Nat.sub_le _ _), List.drop_zero, List.drop_left,
              show fileStartLit.drop (fileStartLit.length - 1) = ['"'] from by decide]
            rfl
          rw [hdrop1, List.count_cons_self]
          have := List.count_pos_iff.mpr hq1
          omega
        · cases hm
      · cases hm
    · obtain ⟨⟨p', j⟩, hj, _⟩ := Option.map_eq_some'.mp h
      have hih := ih hj
      have hdd : s.drop (fileStartLit.length - 1) =
          (s.drop (fileStartLit.length - 2)).drop 1 := by
        rw [List.drop_drop]
        rw [show fileStartLit.length - 2 + 1 = fileStartLit.length - 1 from by decide]
      have hsub : (s.drop (fileStartLit.length - 1)).Sublist
          (s.drop (fileStartLit.length - 2)) := by
        rw [hdd]
        exact List.drop_sublist _ _
      have hmono := hsub.count_le '"'
      have hcs : (c :: s).drop (fileStartLit.length - 1)
          = s.drop (fileStartLit.length - 2) := by
        rw [show fileStartLit.length - 1 = (fileStartLit.length - 2) + 1 from by decide]
        exact List.drop_succ_cons
      rw [hcs]
      omega

theorem searchFileStart_append {s t pth : List Char} {e : Nat}
    (h : searchFileStart s = some (pth, e)) :
    searchFileStart (s ++ t) = some (pth, e) := by
  induction s generalizing pth e with
  | nil => cases h
  | cons c s ih =>
    unfold searchFileStart at h
    split at h
    · rename_i pe hm
      injection h with h'
      subst h'
      have hm' := matchFileStartAt_append (t := t) hm
      rw [List.cons_append]
      unfold searchFileStart
      rw [show c :: (s ++ t) = (c :: s) ++ t from rfl, hm']
    · rename_i hm
      obtain ⟨⟨p', j⟩, hj, he⟩ := Option.map_eq_some'.mp h
      simp only [Prod.mk.injEq] at he
      obtain ⟨rfl, rfl⟩ := he
      have hq := searchFileStart_two_quotes hj
      have hq' : 2 ≤ ((c :: s).drop fileStartLit.length).count '"' := by
        rw [show (c :: s).drop fileStartLit.length
            = s.drop (fileStartLit.length - 1) from by
          rw [show fileStartLit.length = (fileStartLit.length - 1) + 1 from by decide]
          exact List.drop_succ_cons]
        exact hq
      have hm' : matchFileStartAt ((c :: s) ++ t) = none :=
        matchFileStartAt_append_none hq' hm
      rw [List.cons_append]
      unfold searchFileStart
      rw [show c :: (s ++ t) = (c :: s) ++ t from rfl, hm', ih hj]
      rfl

theorem searchFileStart_none_of_no_lit {s : List Char}
    (h : firstOccur fileStartLit s = none) : searchFileStart s = none := by
  induction s with
  | nil => rfl
  | cons c s ih =>
    unfold firstOccur at h
    split at h
    · cases h
    · rename_i hp
      have hs : firstOccur fileStartLit s = none := by
        rcases ho : firstOccur fileStartLit s with _ | j
        · rfl
        · rw [ho] at h
          cases h
      have hm : matchFileStartAt (c :: s) = none := by
        unfold matchFileStartAt
        rw [if_neg hp]
      unfold searchFileStart
      rw [hm, ih hs]
      rfl

/-! ## Rendering well-formed regions -/

/-- The open delimiter `<file path="P">` for a path `P`. -/
def openTagOf (p : List Char) : List Char := fileStartLit ++ p ++ ('"' :: '>' :: [])

theorem matchFileStartAt_openTag {p : List Char} (hp : p ≠ []) (hq : '"' ∉ p)
    (rest : List Char) :
    matchFileStartAt (openTagOf p ++ rest) = some (p, fileStartLit.length + p.length + 2) := by
  have hsh : openTagOf p ++ rest = fileStartLit ++ (p ++ '"' :: '>' :: rest) := by
    simp [openTagOf]
  obtain ⟨htw, hdw⟩ := takeWhile_append_stop hq ('>' :: rest)
  have hqt : ('"' :: '>' :: []).isPrefixOf ('"' :: '>' :: rest) := by
    rw [List.isPrefixOf_iff_prefix, List.cons_prefix_cons]
    refine ⟨rfl, ?_⟩
    rw [List.cons_prefix_cons]
    exact ⟨rfl, List.nil_prefix⟩
  unfold matchFileStartAt
  rw [hsh, if_pos (List.isPrefixOf_iff_prefix.mpr (List.prefix_append _ _)),
    List.drop_left, htw, hdw, if_pos ⟨hp, hqt⟩]

theorem searchFileStart_of_match {s : List Char} {r : List Char × Nat}
    (h : matchFileStartAt s = some r) : searchFileStart s = some r := by
  cases s with
  | nil =>
    rw [show matchFileStartAt [] = none from by decide] at h
    cases h
  | cons c s =>
    unfold searchFileStart
    rw [h]

theorem searchFileStart_render {pre p : List Char} (hp : p ≠ []) (hq : '"' ∉ p) :
    ∀ (rest : List Char), firstOccur fileStartLit pre = none →
    searchFileStart (pre ++ (openTagOf p ++ rest))
      = some (p, pre.length + (fileStartLit.length + p.length + 2)) := by
  induction pre with
  | nil =>
    intro rest _
    simp only [List.nil_append, List.length_nil, Nat.zero_add]
    exact searchFileStart_of_match (matchFileStartAt_openTag hp hq rest)
  | cons c pre ih =>
    intro rest hpre
    unfold firstOccur at hpre
    split at hpre
    · cases hpre
    · rename_i hnp
      have hpre' : firstOccur fileStartLit pre = none := by
        rcases ho : firstOccur fileStartLit pre with _ | j
        · rfl
        · rw [ho] at hpre
          cases hpre
      have hsh : openTagOf p ++ rest = '<' :: (fileStartTail ++ (p ++ '"' :: '>' :: rest)) := by
        rw [openTagOf, fileStartLit_eq]
        simp
      have hbig : ¬ fileStartLit.isPrefixOf (c :: (pre ++ (openTagOf p ++ rest))) := by
        intro hc
        have hpp : ('<' :: fileStartTail) <+: (c :: (pre ++ '<' ::
            (fileStartTail ++ (p ++ '"' :: '>' :: rest)))) := by
          have := List.isPrefixOf_iff_prefix.mp hc
          rw [fileStartLit_eq] at this
          rw [← hsh]
          exact this
        have hnp' : ¬ ('<' :: fileStartTail) <+: (c :: pre) := by
          intro hcc
          exact hnp (List.isPrefixOf_iff_prefix.mpr (fileStartLit_eq ▸ hcc))
        exact not_prefix_cons_append lt_not_mem_fileStartTail hnp' _ hpp
      have hm : matchFileStartAt (c :: (pre ++ (openTagOf p ++ rest))) = none := by
        unfold matchFileStartAt
        rw [if_neg hbig]
      rw [List.cons_append]
      unfold searchFileStart
      rw [hm, ih rest hpre']
      simp only [Option.map_some', Option.some.injEq, Prod.mk.injEq, List.length_cons]
      exact ⟨trivial, by omega⟩

/-! ## The parse loop: fuel irrelevance and chunk compositionality -/

theorem extLoopF_congr : ∀ (a : Nat) (s : ExtState) (b : Nat),
    s.contentBuffer.length < a → s.contentBuffer.length < b →
    extLoopF a s = extLoopF b s := by
  intro a
  induction a with
  | zero =>
    intro s b ha _
    omega
  | succ a ih =>
    intro s b ha hb
    cases b with
    | zero => omega
    | succ b =>
      unfold extLoopF
      cases hc : s.currentFile with
      | none =>
        cases ho : searchFileStart s.contentBuffer with
        | none => rfl
        | some pe =>
          obtain ⟨h1, h2, _⟩ := searchFileStart_bounds
            (show searchFileStart s.contentBuffer = some (pe.1, pe.2) from ho)
          apply ih
          · simp only [List.length_drop]
            omega
          · simp only [List.length_drop]
            omega
      | some p =>
        cases ho : firstOccur fileEndTag s.contentBuffer with
        | none => rfl
        | some i =>
          have hb2 := firstOccur_bounds ho
          have h7 : fileEndTag.length = 7 := by decide
          apply ih
          · simp only [List.length_drop]
            omega
          · simp only [List.length_drop]
            omega

theorem extLoop_eq_of_lt {f : Nat} {s : ExtState} (h : s.contentBuffer.length < f) :
    extLoopF f s = extLoop s :=
  extLoopF_congr f s _ h (Nat.lt_succ_self _)

theorem extLoop_step_open {s : ExtState} {p : List Char} {e : Nat}
    (hc : s.currentFile = none) (ho : searchFileStart s.contentBuffer = some (p, e)) :
    extLoop s = extLoop ⟨s.contentBuffer.drop e, some p, s.events ++ [.processing p]⟩ := by
  obtain ⟨h1, h2, _⟩ := searchFileStart_bounds ho
  have hstep : extLoop s = extLoopF s.contentBuffer.length
      ⟨s.contentBuffer.drop e, some p, s.events ++ [.processing p]⟩ := by
    conv_lhs => unfold extLoop extLoopF
    rw [hc, ho]
  rw [hstep]
  apply extLoop_eq_of_lt
  simp only [List.length_drop]
  omega

theorem extLoop_step_close {s : ExtState} {p : List Char} {i : Nat}
    (hc : s.currentFile = some p) (ho : firstOccur fileEndTag s.contentBuffer = some i) :
    extLoop s = extLoop ⟨s.contentBuffer.drop (i + fileEndTag.length), none,
      s.events ++ [.completed p (pyStrip (s.contentBuffer.take i))]⟩ := by
  have hb2 := firstOccur_bounds ho
  have h7 : fileEndTag.length = 7 := by decide
  have hstep : extLoop s = extLoopF s.contentBuffer.length
      ⟨s.contentBuffer.drop (i + fileEndTag.length), none,
        s.events ++ [.completed p (pyStrip (s.contentBuffer.take i))]⟩ := by
    conv_lhs => unfold extLoop extLoopF
    rw [hc, ho]
  rw [hstep]
  apply extLoop_eq_of_lt
  simp only [List.length_drop]
  omega

theorem extLoop_fix_idle {s : ExtState} (hc : s.currentFile = none)
    (ho : searchFileStart s.contentBuffer = none) : extLoop s = s := by
  conv_lhs => unfold extLoop extLoopF
  rw [hc, ho]

theorem extLoop_fix_acc {s : ExtState} {p : List Char} (hc : s.currentFile = some p)
    (ho : firstOccur fileEndTag s.contentBuffer = none) : extLoop s = s := by
  conv_lhs => unfold extLoop extLoopF
  rw [hc, ho]

/-- Append `t` to a state's accumulation buffer. -/
def withExtra (s : ExtState) (t : List Char) : ExtState :=
  { s with contentBuffer := s.contentBuffer ++ t }

theorem withExtra_nil (s : ExtState) : withExtra s [] = s := by
  simp [withExtra]

theorem extLoopF_append : ∀ (f : Nat) (s : ExtState) (t : List Char),
    s.contentBuffer.length < f →
    extLoop (withExtra (extLoopF f s) t) = extLoop (withExtra s t) := by
  intro f
  induction f with
  | zero =>
    intro s t h
    omega
  | succ f ih =>
    intro s t h
    cases hc : s.currentFile with
    | none =>
      cases ho : searchFileStart s.contentBuffer with
      | none =>
        have hfix : extLoopF (f + 1) s = s := by
          conv_lhs => unfold extLoopF
          rw [hc, ho]
        rw [hfix]
      | some pe =>
        obtain ⟨h1, h2, _⟩ := searchFileStart_bounds
          (show searchFileStart s.contentBuffer = some (pe.1, pe.2) from ho)
        have hstep : extLoopF (f + 1) s = extLoopF f
            ⟨s.contentBuffer.drop pe.2, some pe.1, s.events ++ [.processing pe.1]⟩ := by
          conv_lhs => unfold extLoopF
          rw [hc, ho]
        rw [hstep, ih _ t (by simp only [List.length_drop]; omega)]
        rw [extLoop_step_open (s := withExtra s t) (p := pe.1) (e := pe.2) hc
          (searchFileStart_append (show searchFileStart s.contentBuffer
            = some (pe.1, pe.2) from ho))]
        congr 1
        unfold withExtra
        simp only [ExtState.mk.injEq, and_true, true_and]
        rw [List.drop_append_eq_append_drop, Nat.sub_eq_zero_of_le h2, List.drop_zero]
    | some p =>
      cases ho : firstOccur fileEndTag s.contentBuffer with
      | none =>
        have hfix : extLoopF (f + 1) s = s := by
          conv_lhs => unfold extLoopF
          rw [hc, ho]
        rw [hfix]
      | some i =>
        have hb2 := firstOccur_bounds ho
        have h7 : fileEndTag.length = 7 := by decide
        have hstep : extLoopF (f + 1) s = extLoopF f
            ⟨s.contentBuffer.drop (i + fileEndTag.length), none,
              s.events ++ [.completed p (pyStrip (s.contentBuffer.take i))]⟩ := by
          conv_lhs => unfold extLoopF
          rw [hc, ho]
        rw [hstep, ih _ t (by simp only [List.length_drop]; omega)]
        rw [extLoop_step_close (s := withExtra s t) (p := p) (i := i) hc
          (firstOccur_append ho)]
        congr 1
        unfold withExtra
        simp only [ExtState.mk.injEq, and_true, true_and]
        constructor
        · rw [List.drop_append_eq_append_drop, Nat.sub_eq_zero_of_le (by omega),
            List.drop_zero]
        · rw [List.take_append_eq_append_take, Nat.sub_eq_zero_of_le (by omega),
            List.take_zero, List.append_nil]

theorem feed_feed (s : ExtState) (a b : List Char) :
    feed (feed s a) b = feed s (a ++ b) := by
  have h := extLoopF_append ((withExtra s a).contentBuffer.length + 1) (withExtra s a) b
    (Nat.lt_succ_self _)
  have hw : withExtra (withExtra s a) b = withExtra s (a ++ b) := by
    simp [withExtra, List.append_assoc]
  calc feed (feed s a) b = extLoop (withExtra (feed s a) b) := rfl
    _ = extLoop (withExtra s (a ++ b)) := by rw [← hw, ← h]; rfl
    _ = feed s (a ++ b) := rfl

theorem extLoop_init : extLoop initState = initState := rfl

theorem foldl_feed_flatten : ∀ (cs : List (List Char)) (s : ExtState) (a : List Char),
    List.foldl feed (feed s a) cs = feed s (a ++ cs.flatten) := by
  intro cs
  induction cs with
  | nil =>
    intro s a
    simp
  | cons c cs ih =>
    intro s a
    calc List.foldl feed (feed s a) (c :: cs)
        = List.foldl feed (feed (feed s a) c) cs := rfl
      _ = List.foldl feed (feed s (a ++ c)) cs := by rw [feed_feed]
      _ = feed s ((a ++ c) ++ cs.flatten) := ih s (a ++ c)
      _ = feed s (a ++ (c :: cs).flatten) := by rw [List.flatten_cons, List.append_assoc]

theorem runChunks_eq_feed_flatten (chunks : List (List Char)) :
    runChunks chunks = feed initState chunks.flatten := by
  cases chunks with
  | nil =>
    show initState = feed initState []
    rw [show feed initState [] = extLoop (withExtra initState []) from rfl,
      withExtra_nil, extLoop_init]
  | cons c cs =>
    show List.foldl feed (feed initState c) cs = _
    rw [foldl_feed_flatten, List.flatten_cons]

/-! ## Extraction of well-formed region lists -/

/-- One well-formed region of model output: a `<file path="...">content</file>`
block together with the prose that follows its close delimiter. -/
structure Region where
  path : List Char
  content : List Char
  prose : List Char
deriving DecidableEq, Repr

/-- Well-formedness of a region: the path is nonempty and quote-free (so
the rendered open delimiter is matched by the open pattern exactly), the
content contains no occurrence of `</file>`, and the trailing prose
contains no occurrence of the open-delimiter literal `<file path="`. -/
def wfRegion (r : Region) : Prop :=
  r.path ≠ [] ∧ '"' ∉ r.path ∧ firstOccur fileEndTag r.content = none ∧
    firstOccur fileStartLit r.prose = none

instance : DecidablePred wfRegion := fun r => by
  unfold wfRegion
  infer_instance

/-- Render a region list into the text following the leading prose. -/
def renderRegions : List Region → List Char
  | [] => []
  | r :: rs => openTagOf r.path ++ r.content ++ fileEndTag ++ r.prose ++ renderRegions rs

/-- The prose remaining in the buffer when the stream ends. -/
def lastProse (pre : List Char) : List Region → List Char
  | [] => pre
  | r :: rs => lastProse r.prose rs

/-- The events the extractor emits for a region list, in order. -/
def eventsOfRegions : List Region → List Ev
  | [] => []
  | r :: rs => .processing r.path :: .completed r.path (pyStrip r.content) :: eventsOfRegions rs

theorem extLoop_render : ∀ (rs : List Region) (pre : List Char) (evs : List Ev),
    (∀ r ∈ rs, wfRegion r) → firstOccur fileStartLit pre = none →
    extLoop ⟨pre ++ renderRegions rs, none, evs⟩
      = ⟨lastProse pre rs, none, evs ++ eventsOfRegions rs⟩ := by
  intro rs
  induction rs with
  | nil =>
    intro pre evs _ hpre
    rw [show renderRegions [] = [] from rfl, List.append_nil]
    rw [extLoop_fix_idle rfl (searchFileStart_none_of_no_lit hpre)]
    simp [lastProse, eventsOfRegions]
  | cons r rs ih =>
    intro pre evs hwf hpre
    obtain ⟨hp, hq, hcnt, hprs⟩ := hwf r (List.mem_cons_self r rs)
    have hb : pre ++ renderRegions (r :: rs) = pre ++ (openTagOf r.path ++
        (r.content ++ (fileEndTag ++ (r.prose ++ renderRegions rs)))) := by
      rw [show renderRegions (r :: rs) = openTagOf r.path ++ r.content ++ fileEndTag
        ++ r.prose ++ renderRegions rs from rfl]
      simp [List.append_assoc]
    have ho := searchFileStart_render hp hq
      (r.content ++ (fileEndTag ++ (r.prose ++ renderRegions rs))) hpre
    rw [hb, extLoop_step_open rfl ho]
    have hlen : (pre ++ openTagOf r.path).length
        = pre.length + (fileStartLit.length + r.path.length + 2) := by
      simp only [List.length_append, openTagOf, List.length_cons, List.length_nil]
    have hdrop : (pre ++ (openTagOf r.path ++
        (r.content ++ (fileEndTag ++ (r.prose ++ renderRegions rs))))).drop
          (pre.length + (fileStartLit.length + r.path.length + 2))
        = r.content ++ (fileEndTag ++ (r.prose ++ renderRegions rs)) := by
      rw [← List.append_assoc, ← hlen, List.drop_left]
    rw [hdrop]
    have hcnt' : firstOccur ('<' :: fileEndTail) r.content = none := by
      rw [← fileEndTag_eq]
      exact hcnt
    have ho2 : firstOccur fileEndTag
        (r.content ++ (fileEndTag ++ (r.prose ++ renderRegions rs)))
        = some r.content.length := by
      rw [← List.append_assoc, fileEndTag_eq]
      exact firstOccur_append_self lt_not_mem_fileEndTail r.content
        (r.prose ++ renderRegions rs) hcnt'
    rw [extLoop_step_close rfl ho2]
    have htake : (r.content ++ (fileEndTag ++ (r.prose ++ renderRegions rs))).take
        r.content.length = r.content := List.take_left _ _
    have hdrop2 : (r.content ++ (fileEndTag ++ (r.prose ++ renderRegions rs))).drop
        (r.content.length + fileEndTag.length) = r.prose ++ renderRegions rs := by
      rw [← List.append_assoc, show r.content.length + fileEndTag.length
        = (r.content ++ fileEndTag).length from (List.length_append _ _).symm,
        List.drop_left]
    rw [htake, hdrop2, ih r.prose _ (fun x hx => hwf x (List.mem_cons_of_mem r hx)) hprs]
    rw [show lastProse pre (r :: rs) = lastProse r.prose rs from rfl]
    rw [show eventsOfRegions (r :: rs) = .processing r.path ::
      .completed r.path (pyStrip r.content) :: eventsOfRegions rs from rfl]
    simp [List.append_assoc]

theorem filesOf_eventsOfRegions : ∀ rs : List Region,
    filesOf (eventsOfRegions rs) = rs.map (fun r => (r.path, pyStrip r.content)) := by
  intro rs
  induction rs with
  | nil => rfl
  | cons r rs ih =>
    simp only [eventsOfRegions, filesOf, List.filterMap_cons, List.map_cons]
    simp only [filesOf] at ih
    rw [ih]

theorem runChunks_eq_single (chunks : List (List Char)) :
    runChunks chunks = runChunks [chunks.flatten] := by
  rw [runChunks_eq_feed_flatten, runChunks_eq_feed_flatten]
  rw [List.flatten_cons, List.flatten_nil, List.append_nil]

/-! ## The processing / completed balance invariant -/

/-- Number of `processing` events in a list. -/
def procCount (evs : List Ev) : Nat :=
  evs.countP fun e => match e with
    | .processing _ => true
    | .completed _ _ => false

/-- Number of `completed` events in a list. -/
def compCount (evs : List Ev) : Nat :=
  evs.countP fun e => match e with
    | .completed _ _ => true
    | .processing _ => false

/-- 1 when a file is currently open. -/
def openBit : Option (List Char) → Nat
  | none => 0
  | some _ => 1

/-- Every `processing` event is matched by a `completed` event except for
the at-most-one file still open. -/
def balanced (s : ExtState) : Prop :=
  procCount s.events = compCount s.events + openBit s.currentFile

theorem extLoopF_balanced : ∀ (f : Nat) (s : ExtState),
    balanced s → balanced (extLoopF f s) := by
  intro f
  induction f with
  | zero => intro s h; exact h
  | succ f ih =>
    intro s h
    unfold extLoopF
    cases hc : s.currentFile with
    | none =>
      cases ho : searchFileStart s.contentBuffer with
      | none => exact h
      | some pe =>
        apply ih
        unfold balanced procCount compCount at h ⊢
        rw [hc] at h
        simp [List.countP_append, List.countP_cons, List.countP_nil, openBit] at h ⊢
        omega
    | some p =>
      cases ho : firstOccur fileEndTag s.contentBuffer with
      | none => exact h
      | some i =>
        apply ih
        unfold balanced procCount compCount at h ⊢
        rw [hc] at h
        simp [List.countP_append, List.countP_cons, List.countP_nil, openBit] at h ⊢
        omega

theorem feed_balanced {s : ExtState} (h : balanced s) (c : List Char) :
    balanced (feed s c) :=
  extLoopF_balanced _ _ h

theorem runChunks_balanced (chunks : List (List Char)) : balanced (runChunks chunks) := by
  have hgen : ∀ (cs : List (List Char)) (s : ExtState), balanced s →
      balanced (List.foldl feed s cs) := by
    intro cs
    induction cs with
    | nil => intro s h; exact h
    | cons c cs ih =>
      intro s h
      exact ih _ (feed_balanced h c)
  exact hgen chunks initState (by rfl)

/-! ## Concrete scenario inputs from the specification -/

/-- Scenario A input text. -/
def scenarioAText : List Char := ("blah <file path=\"a.txt\">hello</file> blah".toList)

/-- Scenario B chunking of the same text. -/
def scenarioBChunks : List (List Char) :=
  [("blah <file p".toList), ("ath=\"a.txt\">hel".toList), ("lo</fi".toList), ("le> blah".toList)]

/-- Scenario A as a region list: prose `"blah "`, one region, prose `" blah"`. -/
def scenarioARegion : Region := ⟨("a.txt".toList), ("hello".toList), (" blah".toList)⟩

/-- A stream truncated while `a.txt` is still accumulating. -/
def truncatedChunk : List Char := ("<file path=\"a.txt\">hel".toList)

/-! ## Claim theorems for the extractor -/

/-- C1: for every chunk sequence whose concatenation is a leading prose
(free of the open-delimiter literal) followed by N well-formed
`<file path="P">content</file>` regions interleaved with prose, the
extractor emits exactly N completed `file_operation` events, whose paths
and whitespace-trimmed contents match the N regions, in the order the
close delimiters appear. -/
theorem C1_extractor_emits_wellformed_regions (chunks : List (List Char))
    (pre : List Char) (rs : List Region)
    (hflat : chunks.flatten = pre ++ renderRegions rs)
    (hwf : ∀ r ∈ rs, wfRegion r) (hpre : firstOccur fileStartLit pre = none) :
    filesOf (runChunks chunks).events = rs.map (fun r => (r.path, pyStrip r.content)) := by
  rw [runChunks_eq_feed_flatten, hflat]
  have hinit : (withExtra initState (pre ++ renderRegions rs))
      = ⟨pre ++ renderRegions rs, none, []⟩ := by
    simp [withExtra, initState]
  rw [show feed initState (pre ++ renderRegions rs)
    = extLoop (withExtra initState (pre ++ renderRegions rs)) from rfl]
  rw [hinit, extLoop_render rs pre [] hwf hpre]
  rw [show (⟨lastProse pre rs, none, [] ++ eventsOfRegions rs⟩ : ExtState).events
    = [] ++ eventsOfRegions rs from rfl, List.nil_append]
  exact filesOf_eventsOfRegions rs

/-- C1 witness: scenario A — the input
`"blah <file path=\"a.txt\">hello</file> blah"` fed as a single chunk
yields exactly one completed file `a.txt` with content `hello`. -/
theorem C1_extractor_emits_wellformed_regions_witness :
    [scenarioAText].flatten = ("blah ".toList) ++ renderRegions [scenarioARegion] ∧
      (∀ r ∈ [scenarioARegion], wfRegion r) ∧
      firstOccur fileStartLit ("blah ".toList) = none ∧
      filesOf (runChunks [scenarioAText]).events
        = [(("a.txt".toList), ("hello".toList))] := by
  refine ⟨by decide, by decide, by decide, ?_⟩
  rw [C1_extractor_emits_wellformed_regions [scenarioAText] ("blah ".toList)
    [scenarioARegion] (by decide) (by decide) (by decide)]
  decide

/-- C2: chunk-boundary invariance — feeding any chunk sequence yields the
same final extractor state (hence the same emitted files, paths, contents
and order) as feeding its concatenation as one chunk; in particular the
scenario-B chunking of scenario A's text gives the identical result. -/
theorem C2_chunk_boundary_invariance :
    (∀ chunks : List (List Char), runChunks chunks = runChunks [chunks.flatten]) ∧
      runChunks scenarioBChunks = runChunks [scenarioAText] := by
  refine ⟨runChunks_eq_single, ?_⟩
  rw [runChunks_eq_single scenarioBChunks,
    show scenarioBChunks.flatten = scenarioAText from by decide]

/-- C9 counterexample: when the stream is cut while `a.txt` is still
accumulating, the extractor has already emitted a `file_operation` event
(the `processing` event) for that partially accumulated file, so it is not
true that no file_operation event is ever emitted for it. -/
theorem C9_counterexample_processing_event_emitted :
    (runChunks [truncatedChunk]).currentFile = some ("a.txt".toList) ∧
      (runChunks [truncatedChunk]).events = [.processing ("a.txt".toList)] ∧
      (runChunks [truncatedChunk]).events ≠ [] := by
  decide

/-- C9 (amended): if the stream is cancelled while a file is open, no
`completed` (content-bearing) `file_operation` event has been emitted for
the partially accumulated file: in the terminal state the number of
`processing` events exceeds the number of `completed` events by exactly
one, so the open file received a `processing` event but no `completed`
event, and the partial content is never surfaced. -/
theorem C9_amended_no_completed_event_for_open_file (chunks : List (List Char))
    (p : List Char) (h : (runChunks chunks).currentFile = some p) :
    procCount (runChunks chunks).events = compCount (runChunks chunks).events + 1 := by
  have hb := runChunks_balanced chunks
  unfold balanced at hb
  rw [h] at hb
  exact hb

/-- C9 amended witness: the truncated scenario instantiated concretely. -/
theorem C9_amended_no_completed_event_for_open_file_witness :
    (runChunks [truncatedChunk]).currentFile = some ("a.txt".toList) ∧
      procCount (runChunks [truncatedChunk]).events
        = compCount (runChunks [truncatedChunk]).events + 1 :=
  ⟨by decide, C9_amended_no_completed_event_for_open_file [truncatedChunk]
    ("a.txt".toList) (by decide)⟩

/-! ## The post-stream fallback extraction of `generate_stream`

`main.py` lines 1420-1452: after the chunk stream ends, *only when*
`files_created == 0`, the code looks for incomplete XML (more `<file path=`
occurrences than `</file>` occurrences) and re-scans the full raw response
with `re.finditer(r'<file path="([^"]+)">(.*?)(?:</file>|$)', resp, re.DOTALL)`,
repairing truncated `.html` files by appending `</html>` and truncated
`.js` files by appending the missing closing braces. -/

/-- The literal `<file path=` used by the `str.count` / `in` checks. -/
def fileTagLit : List Char := ("<file path=".toList)

/-- `full_ai_response.count('<file path=')`. -/
def countFileTag (s : List Char) : Nat := countSub '<' ("file path=".toList) s

/-- `full_ai_response.count('</file>')`. -/
def countCloseTag (s : List Char) : Nat := countSub '<' ("/file>".toList) s

/-- The `incomplete_xml` flag of lines 1424-1431. -/
def incompleteXml (resp : List Char) : Bool :=
  containsSub fileTagLit resp && decide (countCloseTag resp < countFileTag resp)

/-- One `finditer` step for `<file path="([^"]+)">(.*?)(?:</file>|$)` under
`re.DOTALL`: the leftmost open-pattern match, then the lazy content group,
which stops at the first `</file>` or, failing that, at `$` (end of string,
or just before a trailing newline — Python's `$` without `re.MULTILINE`).
Returns the path, the raw content group and the text after the match. -/
def fileFragMatch (s : List Char) : Option (List Char × List Char × List Char) :=
  match searchFileStart s with
  | none => none
  | some (p, e) =>
    match firstOccur fileEndTag (s.drop e) with
    | some j => some (p, (s.drop e).take j, (s.drop e).drop (j + fileEndTag.length))
    | none =>
      if (s.drop e).getLast? = some '\n' then some (p, (s.drop e).dropLast, ['\n'])
      else some (p, s.drop e, [])

/-- All `finditer` matches, fuelled (each match consumes a nonempty prefix). -/
def fileFrags : Nat → List Char → List (List Char × List Char)
  | 0, _ => []
  | f + 1, s =>
    match fileFragMatch s with
    | none => []
    | some (p, c, rest) => (p, c) :: fileFrags f rest

/-- All matches of the recovery pattern in the response. -/
def fileFragsAll (s : List Char) : List (List Char × List Char) :=
  fileFrags (s.length + 1) s

/-- Lines 1444-1452: complete a truncated fragment based on its file type.
The content handed in is `match.group(2).strip()`. -/
def repairFragment (p c : List Char) : List Char :=
  if (".html".toList).isSuffixOf p ∧ ¬ (("</html>".toList).isSuffixOf (pyStrip c)) then
    c ++ '\n' :: ("</html>".toList)
  else if (".js".toList).isSuffixOf p ∧ c.count rbrace < c.count lbrace then
    c ++ '\n' :: List.replicate (c.count lbrace - c.count rbrace) rbrace
  else c

/-- The `for match in re.finditer(...)` loop of lines 1436-1452: skip paths
already in `files_map`, repair and emit the rest, updating `files_map`. -/
def xmlRecoverLoop : List (List Char × List Char) → List (List Char) →
    List (List Char × List Char)
  | [], _ => []
  | pc :: frags, createdPaths =>
    if pc.1 ∈ createdPaths then xmlRecoverLoop frags createdPaths
    else (pc.1, repairFragment pc.1 (pyStrip pc.2)) ::
      xmlRecoverLoop frags (pc.1 :: createdPaths)

/-- The incomplete-XML recovery stage (lines 1433-1452), gated on the
`incomplete_xml` flag. -/
def xmlRecover (resp : List Char) (createdPaths : List (List Char)) :
    List (List Char × List Char) :=
  if incompleteXml resp then xmlRecoverLoop (fileFragsAll resp) createdPaths else []

/-- The code's fallback guard, line 1421: `if files_created == 0:`. -/
def codeRecoveryTriggered (s : ExtState) : Bool := (filesOf s.events).length == 0

/-- The specification's recovery trigger (§4.4): fewer files than the
configured minimum of 3, or a file still open at stream end. -/
def specRecoveryTrigger (s : ExtState) : Bool :=
  (filesOf s.events).length < 3 || s.currentFile.isSome

/-- The completed files surfaced after the stream ends: the incremental
extraction result, extended by the incomplete-XML recovery stage exactly
when no file was extracted (the remaining html/css/js fallback stages of
lines 1473-1560 sit inside the same `files_created == 0` guard). -/
def postStreamFiles (resp : List Char) (s : ExtState) : List (List Char × List Char) :=
  if (filesOf s.events).length == 0 then
    filesOf s.events ++ xmlRecover resp ((filesOf s.events).map Prod.fst)
  else filesOf s.events

/-! ## Claim theorems for the fallback stage -/

/-- A response whose extraction yields one completed file while a second
file is still open when the stream ends. -/
def oneFileTruncatedInput : List Char :=
  ("<file path=\"a.txt\">hello</file><file path=\"b.txt\">oops".toList)

/-- C6 counterexample: on `oneFileTruncatedInput` the extraction produced
1 file (below the minimum of 3) and a file is still open, so the
specification's trigger holds, yet the code's guard `files_created == 0`
is false and the recovery stage leaves the file list unchanged. -/
theorem C6_counterexample_trigger_mismatch :
    specRecoveryTrigger (runChunks [oneFileTruncatedInput]) = true ∧
      (filesOf (runChunks [oneFileTruncatedInput]).events).length = 1 ∧
      (runChunks [oneFileTruncatedInput]).currentFile = some ("b.txt".toList) ∧
      codeRecoveryTriggered (runChunks [oneFileTruncatedInput]) = false ∧
      postStreamFiles oneFileTruncatedInput (runChunks [oneFileTruncatedInput])
        = filesOf (runChunks [oneFileTruncatedInput]).events := by
  decide

/-- C6 (amended): the fallback recovery stage runs exactly when the
incremental extraction produced zero files; whenever at least one file was
extracted — even if fewer than 3, and even if a file is still open — the
recovery code path contributes nothing and the extracted list is returned
unchanged. -/
theorem C6_amended_recovery_runs_iff_zero_files (resp : List Char) (s : ExtState) :
    (filesOf s.events ≠ [] → postStreamFiles resp s = filesOf s.events) ∧
      (filesOf s.events = [] → postStreamFiles resp s = xmlRecover resp []) := by
  constructor
  · intro h
    unfold postStreamFiles
    rw [if_neg]
    simp only [beq_iff_eq, List.length_eq_zero]
    exact h
  · intro h
    unfold postStreamFiles
    rw [h]
    simp

/-- C6 amended witness: instantiated at the one-file truncated input and at
an empty-extraction state. -/
theorem C6_amended_recovery_runs_iff_zero_files_witness :
    (filesOf (runChunks [oneFileTruncatedInput]).events ≠ [] ∧
      postStreamFiles oneFileTruncatedInput (runChunks [oneFileTruncatedInput])
        = filesOf (runChunks [oneFileTruncatedInput]).events) ∧
    (filesOf (runChunks [truncatedChunk]).events = [] ∧
      postStreamFiles truncatedChunk (runChunks [truncatedChunk])
        = xmlRecover truncatedChunk []) :=
  ⟨⟨by decide, (C6_amended_recovery_runs_iff_zero_files oneFileTruncatedInput
      (runChunks [oneFileTruncatedInput])).1 (by decide)⟩,
    ⟨by decide, (C6_amended_recovery_runs_iff_zero_files truncatedChunk
      (runChunks [truncatedChunk])).2 (by decide)⟩⟩

/-- Scenario C input: an open tag for `app.js` whose content is
`function f(){` with no close tag before the stream ends. -/
def scenarioCInput : List Char := ("blah <file path=\"app.js\">function f()\x7b".toList)

/-- C7 counterexample: on scenario C the incremental extraction yields no
file and leaves `app.js` open with brace count 1-open/0-close, and the
recovery stage emits `app.js` — but with content `"function f(){\n}"`
(the code appends `'\n' + '}' * missing`), not `"function f(){}"`. -/
theorem C7_counterexample_newline_before_brace :
    filesOf (runChunks [scenarioCInput]).events = [] ∧
      (runChunks [scenarioCInput]).currentFile = some ("app.js".toList) ∧
      (("function f()\x7b".toList).count lbrace = 1 ∧
        ("function f()\x7b".toList).count rbrace = 0) ∧
      postStreamFiles scenarioCInput (runChunks [scenarioCInput])
        = [(("app.js".toList), ("function f()\x7b\n\x7d".toList))] ∧
      ("function f()\x7b\n\x7d".toList) ≠ ("function f()\x7b\x7d".toList) := by
  decide

/-- C7 (amended): on scenario C the recovery path appends a newline and one
closing brace, emitting `app.js` with content exactly `"function f(){\n}"`. -/
theorem C7_amended_recovery_appends_newline_and_brace :
    xmlRecover scenarioCInput []
      = [(("app.js".toList), (("function f()\x7b".toList) ++ '\n' :: [rbrace]))] := by
  decide

/-! ## The credential pool of `ModelRouter`

`model_router.py`: `__init__` (lines 55-60) sets `current_key_index` to 0
for every model; `get_api_key` (lines 241-267) is the only code that reads
or writes the index (rotation happens only inside it, on `rotate=True`). -/

/-- One model's credential state: the key list loaded at startup
(immutable) and its `current_key_index` entry. -/
structure RouterPool where
  keys : List (List Char)
  index : Nat
deriving DecidableEq, Repr

/-- `__init__`: the index starts at 0. -/
def initPool (keys : List (List Char)) : RouterPool := ⟨keys, 0⟩

/-- `get_api_key(model_name, rotate)`: `None` when the key list is empty;
otherwise, when `rotate` is set and more than one key exists, first advance
the index to `(index + 1) % len(keys)`; finally return `keys[index]`. -/
def getApiKey (rotate : Bool) (p : RouterPool) : Option (List Char) × RouterPool :=
  if p.keys = [] then (none, p)
  else
    let p' := if rotate ∧ 1 < p.keys.length then
      { p with index := (p.index + 1) % p.keys.length } else p
    (p'.keys.get? p'.index, p')

/-- `rotate_key(model_name)` = `get_api_key(model_name, rotate=True)`. -/
def rotateKey (p : RouterPool) : Option (List Char) × RouterPool := getApiKey true p

/-- C8: with K ≥ 1 keys and the index invariant `index < K` holding, the
index starts at 0, a non-rotating read (the path taken by every request
attempt and by every successful call) leaves the pool completely unchanged
(sticky rotation), a rotation maps the index to `(index + 1) % K` without
touching the key list, both operations preserve `index ∈ [0, K)`, and the
returned key is always present (no out-of-range access). -/
theorem C8_pool_index_invariant (keys : List (List Char)) (p : RouterPool)
    (hk : p.keys ≠ []) (hinv : p.index < p.keys.length) :
    (initPool keys).index = 0 ∧
      (getApiKey false p).2 = p ∧
      (getApiKey true p).2.index = (p.index + 1) % p.keys.length ∧
      (getApiKey true p).2.keys = p.keys ∧
      (∀ r : Bool, (getApiKey r p).2.index < p.keys.length) ∧
      (∀ r : Bool, ((getApiKey r p).1).isSome) := by
  have hlen : 0 < p.keys.length := List.length_pos.mpr hk
  refine ⟨rfl, ?_, ?_, ?_, ?_, ?_⟩
  · unfold getApiKey
    rw [if_neg hk]
    simp
  · unfold getApiKey
    rw [if_neg hk]
    by_cases h1 : 1 < p.keys.length
    · simp [h1]
    · have hone : p.keys.length = 1 := by omega
      have hidx : p.index = 0 := by omega
      simp [h1, hone, hidx]
  · unfold getApiKey
    rw [if_neg hk]
    by_cases h1 : 1 < p.keys.length
    · simp [h1]
    · simp [h1]
  · intro r
    unfold getApiKey
    rw [if_neg hk]
    by_cases h1 : r ∧ 1 < p.keys.length
    · simp only [if_pos h1]
      exact Nat.mod_lt _ hlen
    · simp only [if_neg h1]
      exact hinv
  · intro r
    unfold getApiKey
    rw [if_neg hk]
    by_cases h1 : r ∧ 1 < p.keys.length
    · simp only [if_pos h1]
      rw [List.get?_eq_getElem?, List.getElem?_eq_getElem (Nat.mod_lt _ hlen)]
      rfl
    · simp only [if_neg h1]
      rw [List.get?_eq_getElem?, List.getElem?_eq_getElem hinv]
      rfl

/-- C8 witness: a two-key pool at index 1. -/
theorem C8_pool_index_invariant_witness :
    ((⟨[("k1".toList), ("k2".toList)], 1⟩ : RouterPool).keys ≠ [] ∧
      (⟨[("k1".toList), ("k2".toList)], 1⟩ : RouterPool).index
        < (⟨[("k1".toList), ("k2".toList)], 1⟩ : RouterPool).keys.length) ∧
    (getApiKey true ⟨[("k1".toList), ("k2".toList)], 1⟩).2.index
      = (1 + 1) % 2 := by
  refine ⟨⟨by decide, by decide⟩, ?_⟩
  have h := C8_pool_index_invariant [] ⟨[("k1".toList), ("k2".toList)], 1⟩
    (by decide) (by decide)
  exact h.2.2.1

/-! ## The numbered-suffix credential loader

`ModelRouter._load_multiple_keys` (model_router.py lines 86-119): the
comma-separated main variable is split, stripped and filtered, then the
numbered loop reads `PREFIX_1`, `PREFIX_2`, ... in order and breaks at the
first unset (or empty, hence falsy) variable; finally duplicates are
removed preserving first-seen order. -/

/-- The numbered-variable `while True` loop, reading suffix `i` upward.
The environment maps each numeric suffix to the variable's value (`none`
when unset).  The Python loop is unbounded, so it is fuelled; any fuel
reaching the first falsy suffix computes the loop's value. -/
def loadNumberedF (env : Nat → Option (List Char)) : Nat → Nat → List (List Char)
  | 0, _ => []
  | f + 1, i =>
    match env i with
    | none => []
    | some k => if k = [] then [] else pyStrip k :: loadNumberedF env f (i + 1)

/-- The comma-separated part: `[k.strip() for k in main_key.split(',') if k.strip()]`,
guarded by the truthiness of the main variable. -/
def commaKeys (mainVal : Option (List Char)) : List (List Char) :=
  match mainVal with
  | none => []
  | some mv =>
    if mv = [] then []
    else ((mv.splitOn ',').map pyStrip).filter (fun k => k ≠ [])

/-- Remove duplicates while preserving first-seen order (lines 111-117). -/
def dedupKeys : List (List Char) → List (List Char) → List (List Char)
  | [], _ => []
  | k :: ks, seen => if k ∈ seen then dedupKeys ks seen else k :: dedupKeys ks (k :: seen)

/-- `_load_multiple_keys`. -/
def loadMultipleKeys (mainVal : Option (List Char)) (env : Nat → Option (List Char))
    (fuel : Nat) : List (List Char) :=
  dedupKeys (commaKeys mainVal ++ loadNumberedF env fuel 1) []

/-- C10: the loader reads `PREFIX_1`, `PREFIX_2`, ... strictly in order and
stops at the first falsy (unset or empty) suffix `g`, so the loaded pool is
completely independent of the values configured at suffixes `≥ g`: two
environments that agree below the gap and are both falsy at the gap load
the identical pool, whatever keys sit above the gap. -/
theorem C10_numbered_loader_stops_at_gap (envA envB : Nat → Option (List Char))
    (g : Nat) (hg : 1 ≤ g) (hagree : ∀ i < g, envA i = envB i)
    (hA : envA g = none ∨ envA g = some [])
    (hB : envB g = none ∨ envB g = some [])
    (mainVal : Option (List Char)) (fuel : Nat) :
    loadMultipleKeys mainVal envA fuel = loadMultipleKeys mainVal envB fuel := by
  have hnum : ∀ (f i : Nat), i ≤ g → loadNumberedF envA f i = loadNumberedF envB f i := by
    intro f
    induction f with
    | zero => intro i _; rfl
    | succ f ih =>
      intro i hi
      unfold loadNumberedF
      rcases Nat.lt_or_ge i g with hlt | hge
      · rw [hagree i hlt]
        cases envB i with
        | none => rfl
        | some k =>
          by_cases hk : k = []
          · simp [hk]
          · simp only [hk, if_neg hk]
            rw [ih (i + 1) (by omega)]
      · have hig : i = g := by omega
        subst hig
        rcases hA with h | h <;> rcases hB with h' | h' <;> rw [h, h'] <;> simp
  unfold loadMultipleKeys
  rw [hnum fuel 1 hg]

/-- C10 witness: suffix 2 is unset, so the key at suffix 3 is never loaded
— the pool is the same whether suffix 3 holds `k3` or nothing. -/
theorem C10_numbered_loader_stops_at_gap_witness :
    (1 ≤ 2 ∧ (∀ i < 2, (fun i => if i = 1 then some (("k1".toList)) else
        if i = 3 then some (("k3".toList)) else none) i
      = (fun i => if i = 1 then some (("k1".toList)) else none) i)) ∧
    loadMultipleKeys none (fun i => if i = 1 then some (("k1".toList)) else
        if i = 3 then some (("k3".toList)) else none) 10
      = loadMultipleKeys none (fun i => if i = 1 then some (("k1".toList)) else none) 10 ∧
    loadMultipleKeys none (fun i => if i = 1 then some (("k1".toList)) else
        if i = 3 then some (("k3".toList)) else none) 10 = [("k1".toList)] := by
  refine ⟨⟨by decide, by decide⟩, ?_, by decide⟩
  exact C10_numbered_loader_stops_at_gap _ _ 2 (by decide) (by decide)
    (Or.inl (by decide)) (Or.inl (by decide)) none 10

/-! ## `MVPBuilderAgent.get_ai_response`: rotation, backoff, termination

`mvp_builder_agent.py` lines 199-387.  `AIModel` (lines 50-52) has the
single member `MINIMAX`; `model_configs[AIModel.MINIMAX]` (lines 180-195)
sets `retry_on_rate_limit = True`, `retry_delay = 5`, `max_retries = 3`.
A non-ok HTTP response is classified (lines 259-267) as rate-limited when
its status is 429 or its body carries a quota-exhaustion phrase.  Then
(lines 269-305): if `len(all_keys) > 1 and key_rotation_count <
len(all_keys) - 1`, the router key is rotated and the call retries
immediately; otherwise, if `retry_on_rate_limit` and `retry_count <
max_retries`, the call sleeps the constant `retry_delay` seconds and
retries with `key_rotation_count` reset to 0 and the router index
unchanged; otherwise the raised "AI API error" is wrapped by the outer
handler (lines 373-387) into the terminal
`"All {K} MiniMax API keys failed or exhausted"` error.  A non-ok
response that is not rate-limited is raised and wrapped the same way. -/

/-- `class AIModel(Enum)` (lines 50-52): the single supported family. -/
inductive AIModel where
  | MINIMAX
deriving DecidableEq, Repr

/-- The retry-relevant fields of a `model_configs` entry. -/
structure AgentCfg where
  retryOnRateLimit : Bool
  retryDelay : Nat
  maxRetries : Nat
deriving DecidableEq, Repr

/-- `model_configs[AIModel.MINIMAX]` (lines 185-187). -/
def minimaxCfg : AgentCfg := ⟨true, 5, 3⟩

/-- Classification of one HTTP attempt (lines 256-267). -/
inductive HttpResult where
  | ok
  | rateLimited
  | fatal
deriving DecidableEq, Repr

/-- Observable actions of one logical `get_ai_response` call. -/
inductive AgentEv where
  /-- an HTTP request issued while the router index is `idx` -/
  | attempt (idx : Nat)
  /-- `model_router.rotate_key`, landing on index `idx` -/
  | rotate (idx : Nat)
  /-- `await asyncio.sleep(secs)` before a delay-based retry -/
  | delay (secs : Nat)
deriving DecidableEq, Repr

/-- The terminal result of one logical `get_ai_response` call. -/
inductive AgentOutcome where
  | success
  /-- the `ValueError` path when the key pool is empty -/
  | noKeys
  /-- the wrapped terminal error `"All {k} MiniMax API keys failed or exhausted"` -/
  | allKeysFailed (k : Nat)
  | outOfFuel
deriving DecidableEq, Repr

/-- One logical `get_ai_response` call over a pool of `K` keys whose `n`-th
HTTP attempt is classified `results n`.  `idx` mirrors the router's
`current_key_index`; `retryCount` and `rotCount` are the recursion
arguments `retry_count` and `key_rotation_count` of lines 199-206.  The
Python recursion is re-entered as a generator; it is fuelled here, and the
guards bound the recursion depth so sufficient fuel always exists. -/
def getAiSimF (cfg : AgentCfg) (K : Nat) (results : Nat → HttpResult) :
    Nat → Nat → Nat → Nat → Nat → List AgentEv × AgentOutcome
  | 0, _, _, _, _ => ([], .outOfFuel)
  | f + 1, n, retryCount, rotCount, idx =>
    if K = 0 then ([], .noKeys)
    else
      match results n with
      | .ok => ([.attempt idx], .success)
      | .fatal => ([.attempt idx], .allKeysFailed K)
      | .rateLimited =>
        if 1 < K ∧ rotCount < K - 1 then
          let r := getAiSimF cfg K results f (n + 1) retryCount (rotCount + 1) ((idx + 1) % K)
          (.attempt idx :: .rotate ((idx + 1) % K) :: r.1, r.2)
        else if cfg.retryOnRateLimit ∧ retryCount < cfg.maxRetries then
          let r := getAiSimF cfg K results f (n + 1) (retryCount + 1) 0 idx
          (.attempt idx :: .delay cfg.retryDelay :: r.1, r.2)
        else ([.attempt idx], .allKeysFailed K)

/-- The key indices attempted, in order. -/
def attemptsOf (evs : List AgentEv) : List Nat :=
  evs.filterMap fun e => match e with
    | .attempt i => some i
    | _ => none

/-- The sleep durations, in order. -/
def delaysOf (evs : List AgentEv) : List Nat :=
  evs.filterMap fun e => match e with
    | .delay d => some d
    | _ => none

/-- Number of rotations in an event list. -/
def rotateCount (evs : List AgentEv) : Nat :=
  evs.countP fun e => match e with
    | .rotate _ => true
    | _ => false

/-- The events of one rotation cycle: an attempt at `idx`, then `d` times a
rotation followed by an attempt at the next index. -/
def rotAttempts (K : Nat) : Nat → Nat → List AgentEv
  | idx, 0 => [.attempt idx]
  | idx, d + 1 => .attempt idx :: .rotate ((idx + 1) % K) :: rotAttempts K ((idx + 1) % K) d

theorem attemptsOf_rotAttempts (K : Nat) :
    ∀ (d idx : Nat), idx < K →
    attemptsOf (rotAttempts K idx d) = (List.range (d + 1)).map (fun j => (idx + j) % K) := by
  intro d
  induction d with
  | zero =>
    intro idx hidx
    simp [rotAttempts, attemptsOf, List.range_succ, Nat.mod_eq_of_lt hidx]
  | succ d ih =>
    intro idx hidx
    have hlt : (idx + 1) % K < K := Nat.mod_lt _ (by omega)
    have hL : attemptsOf (rotAttempts K idx (d + 1))
        = idx :: attemptsOf (rotAttempts K ((idx + 1) % K) d) := rfl
    conv_rhs => rw [List.range_succ_eq_map, List.map_cons, List.map_map]
    rw [hL, ih _ hlt]
    simp only [Nat.add_zero]
    rw [Nat.mod_eq_of_lt hidx]
    congr 1
    apply List.map_congr_left
    intro j _
    show ((idx + 1) % K + j) % K = (idx + (j + 1)) % K
    rw [Nat.mod_add_mod]
    congr 1
    omega

theorem rotateCount_rotAttempts (K : Nat) :
    ∀ (d idx : Nat), rotateCount (rotAttempts K idx d) = d := by
  intro d
  induction d with
  | zero => intro idx; rfl
  | succ d ih =>
    intro idx
    show rotateCount (.attempt idx :: .rotate ((idx + 1) % K)
      :: rotAttempts K ((idx + 1) % K) d) = d + 1
    unfold rotateCount at ih ⊢
    simp [List.countP_cons, ih]

theorem delaysOf_rotAttempts (K : Nat) :
    ∀ (d idx : Nat), delaysOf (rotAttempts K idx d) = [] := by
  intro d
  induction d with
  | zero => intro idx; rfl
  | succ d ih =>
    intro idx
    show delaysOf (.attempt idx :: .rotate ((idx + 1) % K)
      :: rotAttempts K ((idx + 1) % K) d) = []
    unfold delaysOf at ih ⊢
    simp [List.filterMap_cons, ih]

theorem nodup_range_map_mod (K idx : Nat) :
    ((List.range K).map (fun j => (idx + j) % K)).Nodup := by
  apply List.Nodup.map_on
  · intro a ha b hb hab
    have ha' : a < K := List.mem_range.mp ha
    have hb' : b < K := List.mem_range.mp hb
    have hmod : a % K = b % K := by
      have h1 : (idx + a) ≡ (idx + b) [MOD K] := hab
      exact Nat.ModEq.add_left_cancel' idx h1
    rw [Nat.mod_eq_of_lt ha', Nat.mod_eq_of_lt hb'] at hmod
    exact hmod
  · exact List.nodup_range K

/-- If the `n`-th attempt is rate-limited and the pool still has untried
keys, the call rotates `d` more times (attempting `d + 1` distinct keys)
and then falls back to one delay-based retry with the index unchanged. -/
theorem getAiSimF_rot_phase (cfg : AgentCfg) (K : Nat) (results : Nat → HttpResult)
    (hRL : ∀ m, results m = .rateLimited) (hR : cfg.retryOnRateLimit = true) :
    ∀ (d f n rc rot idx : Nat), rot + d = K - 1 → 1 ≤ K → idx < K →
      rc < cfg.maxRetries →
    getAiSimF cfg K results (f + d + 1) n rc rot idx
      = (rotAttempts K idx d ++ .delay cfg.retryDelay ::
          (getAiSimF cfg K results f (n + d + 1) (rc + 1) 0 ((idx + d) % K)).1,
        (getAiSimF cfg K results f (n + d + 1) (rc + 1) 0 ((idx + d) % K)).2) := by
  intro d
  induction d with
  | zero =>
    intro f n rc rot idx hrot hK hidx hrc
    show getAiSimF cfg K results (f + 1) n rc rot idx = _
    conv_lhs => unfold getAiSimF
    rw [if_neg (by omega : ¬ K = 0), hRL n, if_neg (by omega : ¬ (1 < K ∧ rot < K - 1)),
      if_pos ⟨hR, hrc⟩]
    simp only [Nat.add_zero]
    rw [Nat.mod_eq_of_lt hidx]
    rfl
  | succ d ih =>
    intro f n rc rot idx hrot hK hidx hrc
    have hK2 : 1 < K := by omega
    have hguard : 1 < K ∧ rot < K - 1 := ⟨hK2, by omega⟩
    show getAiSimF cfg K results ((f + d + 1) + 1) n rc rot idx = _
    conv_lhs => unfold getAiSimF
    rw [if_neg (by omega : ¬ K = 0), hRL n, if_pos hguard]
    have hlt : (idx + 1) % K < K := Nat.mod_lt _ (by omega)
    rw [ih f (n + 1) rc (rot + 1) ((idx + 1) % K) (by omega) (by omega) hlt hrc]
    rw [show rotAttempts K idx (d + 1) = .attempt idx :: .rotate ((idx + 1) % K)
      :: rotAttempts K ((idx + 1) % K) d from rfl]
    have hidx2 : ((idx + 1) % K + d) % K = (idx + (d + 1)) % K := by
      rw [Nat.mod_add_mod]
      congr 1
      omega
    have hn2 : n + 1 + d + 1 = n + (d + 1) + 1 := by omega
    rw [hidx2, hn2]
    rfl

/-- Once the retry budget is also spent, the remaining rotations end in the
terminal `allKeysFailed` error with no further delay. -/
theorem getAiSimF_rot_phase_final (cfg : AgentCfg) (K : Nat)
    (results : Nat → HttpResult) (hRL : ∀ m, results m = .rateLimited) :
    ∀ (d f n rc rot idx : Nat), rot + d = K - 1 → 1 ≤ K →
      cfg.maxRetries ≤ rc →
    getAiSimF cfg K results (f + d + 1) n rc rot idx
      = (rotAttempts K idx d, .allKeysFailed K) := by
  intro d
  induction d with
  | zero =>
    intro f n rc rot idx hrot hK hrc
    show getAiSimF cfg K results (f + 1) n rc rot idx = _
    conv_lhs => unfold getAiSimF
    rw [if_neg (by omega : ¬ K = 0), hRL n, if_neg (by omega : ¬ (1 < K ∧ rot < K - 1)),
      if_neg (fun hcon => absurd hcon.2 (by omega))]
    rfl
  | succ d ih =>
    intro f n rc rot idx hrot hK hrc
    have hguard : 1 < K ∧ rot < K - 1 := ⟨by omega, by omega⟩
    show getAiSimF cfg K results ((f + d + 1) + 1) n rc rot idx = _
    conv_lhs => unfold getAiSimF
    rw [if_neg (by omega : ¬ K = 0), hRL n, if_pos hguard]
    rw [ih f (n + 1) rc (rot + 1) ((idx + 1) % K) (by omega) (by omega) hrc]
    rfl

/-- The whole event trace of a call whose every attempt is rate-limited:
one full rotation cycle per retry round, separated by constant delays. -/
def rlFullTrace (K dly : Nat) : Nat → Nat → List AgentEv
  | idx, 0 => rotAttempts K idx (K - 1)
  | idx, r + 1 => rotAttempts K idx (K - 1) ++ .delay dly ::
      rlFullTrace K dly ((idx + (K - 1)) % K) r

theorem delaysOf_append (a b : List AgentEv) :
    delaysOf (a ++ b) = delaysOf a ++ delaysOf b := by
  unfold delaysOf
  rw [List.filterMap_append]

theorem delaysOf_rlFullTrace (K dly : Nat) :
    ∀ (r idx : Nat), delaysOf (rlFullTrace K dly idx r) = List.replicate r dly := by
  intro r
  induction r with
  | zero =>
    intro idx
    exact delaysOf_rotAttempts K (K - 1) idx
  | succ r ih =>
    intro idx
    show delaysOf (rotAttempts K idx (K - 1) ++ .delay dly ::
      rlFullTrace K dly ((idx + (K - 1)) % K) r) = _
    rw [delaysOf_append, delaysOf_rotAttempts]
    rw [show delaysOf (.delay dly :: rlFullTrace K dly ((idx + (K - 1)) % K) r)
      = dly :: delaysOf (rlFullTrace K dly ((idx + (K - 1)) % K) r) from rfl]
    rw [ih]
    rfl

/-- The complete behaviour of a logical call under persistent rate
limiting: `maxRetries` delay-separated full rotation cycles, ending in the
terminal `allKeysFailed` error. -/
theorem getAiSimF_full_rl (cfg : AgentCfg) (K : Nat) (results : Nat → HttpResult)
    (hRL : ∀ m, results m = .rateLimited) (hR : cfg.retryOnRateLimit = true) :
    ∀ (r f n rc idx : Nat), rc + r = cfg.maxRetries → 1 ≤ K → idx < K →
    getAiSimF cfg K results ((r + 1) * K + f) n rc 0 idx
      = (rlFullTrace K cfg.retryDelay idx r, .allKeysFailed K) := by
  intro r
  induction r with
  | zero =>
    intro f n rc idx hrc hK hidx
    have h1K : (0 + 1) * K = K := by ring
    have hfuel : (0 + 1) * K + f = f + (K - 1) + 1 := by omega
    rw [hfuel, getAiSimF_rot_phase_final cfg K results hRL (K - 1) f n rc 0 idx
      (by omega) hK (by omega)]
    rfl
  | succ r ih =>
    intro f n rc idx hrc hK hidx
    have hfuel : (r + 1 + 1) * K + f = ((r + 1) * K + f) + (K - 1) + 1 := by
      have hsm : (r + 1 + 1) * K = (r + 1) * K + K := by ring
      omega
    rw [hfuel, getAiSimF_rot_phase cfg K results hRL hR (K - 1) ((r + 1) * K + f)
      n rc 0 idx (by omega) hK hidx (by omega)]
    have hlt : (idx + (K - 1)) % K < K := Nat.mod_lt _ (by omega)
    rw [ih f (n + (K - 1) + 1) (rc + 1) ((idx + (K - 1)) % K) (by omega) hK hlt]
    rfl

/-! ## Claim theorems for the resilient client -/

/-- C3: with a pool of K ≥ 1 keys, a run of K consecutive rate-limited
classifications within one logical `get_ai_response` call tries exactly K
distinct key indices — the starting index followed by K−1 rotations, with
no index repeated — and only then falls back to a delay-based retry (the
`delay` event immediately follows the K-th attempt); the rotation count is
exactly K−1. -/
theorem C3_rate_limit_rotation_bound (K f idx0 : Nat) (hK : 1 ≤ K) (hidx : idx0 < K) :
    (∃ rest, (getAiSimF minimaxCfg K (fun _ => .rateLimited)
        (f + (K - 1) + 1) 0 0 0 idx0).1
      = rotAttempts K idx0 (K - 1) ++ .delay minimaxCfg.retryDelay :: rest) ∧
    attemptsOf (rotAttempts K idx0 (K - 1))
      = (List.range K).map (fun j => (idx0 + j) % K) ∧
    (attemptsOf (rotAttempts K idx0 (K - 1))).Nodup ∧
    (attemptsOf (rotAttempts K idx0 (K - 1))).length = K ∧
    rotateCount (rotAttempts K idx0 (K - 1)) = K - 1 := by
  have hK1 : K - 1 + 1 = K := by omega
  have hatt := attemptsOf_rotAttempts K (K - 1) idx0 hidx
  rw [hK1] at hatt
  refine ⟨?_, hatt, ?_, ?_, rotateCount_rotAttempts K (K - 1) idx0⟩
  · have h := getAiSimF_rot_phase minimaxCfg K (fun _ => .rateLimited)
      (fun _ => rfl) rfl (K - 1) f 0 0 0 idx0 (by omega) hK hidx
      (by decide : (0 : Nat) < minimaxCfg.maxRetries)
    exact ⟨_, congrArg Prod.fst h⟩
  · rw [hatt]
    exact nodup_range_map_mod K idx0
  · rw [hatt]
    simp

/-- C3 witness: a three-key pool starting at index 0. -/
theorem C3_rate_limit_rotation_bound_witness :
    (1 ≤ 3 ∧ (0 : Nat) < 3) ∧
      (attemptsOf (rotAttempts 3 0 (3 - 1))).Nodup ∧
      (attemptsOf (rotAttempts 3 0 (3 - 1))).length = 3 := by
  have h := C3_rate_limit_rotation_bound 3 10 0 (by decide) (by decide)
  exact ⟨⟨by decide, by decide⟩, h.2.2.1, h.2.2.2.1⟩

/-- C4 counterexample: with a pool of 2 keys and every attempt
rate-limited, the delay-based retries sleep the constant configured
`retry_delay = 5` seconds, `[5, 5, 5]` — whereas the claimed
`min(2^attempt, cap)` is 1 at attempt 0 (shown with the spec's exemplar
cap of 10; any cap gives `min(1, cap) ≤ 1`), so the delay does not grow
exponentially with the attempt number. -/
theorem C4_counterexample_constant_delay :
    delaysOf (getAiSimF minimaxCfg 2 (fun _ => .rateLimited) 20 0 0 0 0).1
      = [5, 5, 5] ∧ Nat.min (2 ^ 0) 10 = 1 ∧ (5 : Nat) ≠ 1 := by
  decide

/-- C4 (amended): once every credential has been tried and the request is
still rate-limited, the client retries after the *constant* configured
`retry_delay` of 5 seconds per attempt (not an exponential
`min(2^attempt, cap)`), up to `max_retries = 3` times, each delay-based
retry keeping the key index the previous cycle ended on (no further
rotation at that point — the rotation counter is merely reset), and the
call then terminates with the `allKeysFailed` error. -/
theorem C4_amended_constant_delay_retry (K f idx0 : Nat) (hK : 1 ≤ K)
    (hidx : idx0 < K) :
    getAiSimF minimaxCfg K (fun _ => .rateLimited)
        ((minimaxCfg.maxRetries + 1) * K + f) 0 0 0 idx0
      = (rlFullTrace K minimaxCfg.retryDelay idx0 minimaxCfg.maxRetries,
          .allKeysFailed K) ∧
    delaysOf (rlFullTrace K minimaxCfg.retryDelay idx0 minimaxCfg.maxRetries)
      = List.replicate minimaxCfg.maxRetries minimaxCfg.retryDelay ∧
    minimaxCfg.retryDelay = 5 ∧ minimaxCfg.maxRetries = 3 := by
  refine ⟨?_, delaysOf_rlFullTrace K minimaxCfg.retryDelay minimaxCfg.maxRetries idx0,
    rfl, rfl⟩
  exact getAiSimF_full_rl minimaxCfg K (fun _ => .rateLimited) (fun _ => rfl) rfl
    minimaxCfg.maxRetries f 0 0 idx0 (by omega) hK hidx

/-- C4 amended witness: scenario D's pool of two keys. -/
theorem C4_amended_constant_delay_retry_witness :
    (1 ≤ 2 ∧ (0 : Nat) < 2) ∧
      getAiSimF minimaxCfg 2 (fun _ => .rateLimited)
          ((minimaxCfg.maxRetries + 1) * 2 + 0) 0 0 0 0
        = (rlFullTrace 2 minimaxCfg.retryDelay 0 minimaxCfg.maxRetries,
            .allKeysFailed 2) :=
  ⟨⟨by decide, by decide⟩,
    (C4_amended_constant_delay_retry 2 0 0 (by decide) (by decide)).1⟩

/-- `ModelRouter.get_recommended_models_for_task` for `MVP_GENERATION`
(model_router.py lines 348-357): the static priority chain, all models
assumed available. -/
def mvpRecommendedChain : List (List Char) :=
  [("minimax".toList), ("groq".toList), ("kimi".toList)]

/-- C5 counterexample: on a `Fatal` classification of the very first
attempt, `get_ai_response` raises the single terminal error immediately —
one attempt, no rotation, no delay, no switch to another model family —
even though the router's static chain for MVP generation lists 3 families
of which only MiniMax was ever attempted. -/
theorem C5_counterexample_no_family_fallback :
    getAiSimF minimaxCfg 2 (fun _ => .fatal) 10 0 0 0 0
      = ([.attempt 0], .allKeysFailed 2) ∧
      mvpRecommendedChain.length = 3 ∧
      attemptsOf (getAiSimF minimaxCfg 2 (fun _ => .fatal) 10 0 0 0 0).1 = [0] := by
  decide

/-- C5 (amended): `get_ai_response` has no model-family fallback chain:
`AIModel` has the single member `MINIMAX`, a `Fatal` classification makes
the call raise immediately — the attempt's error is wrapped by the outer
handler into the one terminal `"All {K} MiniMax API keys failed or
exhausted"` error naming the sole family's key count — and exhausting
rotation plus backoff ends in that same terminal error, with no further
family attempted in either case. -/
theorem C5_amended_single_family_immediate_raise :
    (∀ m : AIModel, m = AIModel.MINIMAX) ∧
    (∀ (cfg : AgentCfg) (K : Nat) (results : Nat → HttpResult)
        (f n rc rot idx : Nat), 1 ≤ K → results n = .fatal →
      getAiSimF cfg K results (f + 1) n rc rot idx
        = ([.attempt idx], .allKeysFailed K)) ∧
    (∀ (K f idx0 : Nat), 1 ≤ K → idx0 < K →
      (getAiSimF minimaxCfg K (fun _ => .rateLimited)
          ((minimaxCfg.maxRetries + 1) * K + f) 0 0 0 idx0).2
        = .allKeysFailed K) := by
  refine ⟨?_, ?_, ?_⟩
  · intro m
    cases m
    rfl
  · intro cfg K results f n rc rot idx hK hf
    conv_lhs => unfold getAiSimF
    rw [if_neg (by omega : ¬ K = 0), hf]
  · intro K f idx0 hK hidx
    rw [getAiSimF_full_rl minimaxCfg K (fun _ => .rateLimited) (fun _ => rfl) rfl
      minimaxCfg.maxRetries f 0 0 idx0 (by omega) hK hidx]

/-- C5 amended witness: a fatal first attempt over a two-key pool. -/
theorem C5_amended_single_family_immediate_raise_witness :
    (1 ≤ 2 ∧ (fun _ => HttpResult.fatal) 0 = HttpResult.fatal) ∧
      getAiSimF minimaxCfg 2 (fun _ => .fatal) 10 0 0 0 0
        = ([.attempt 0], .allKeysFailed 2) :=
  ⟨⟨by decide, rfl⟩,
    (C5_amended_single_family_immediate_raise).2.1 minimaxCfg 2 (fun _ => .fatal)
      9 0 0 0 0 (by decide) rfl⟩

end Nexora
